import Mathlib

/-!
Verification of `alphacsc/update_d_multi.py` (convolutional dictionary learning,
dictionary-update step).

Dense numeric arrays are embedded as total functions `ℕ → … → R` together with
explicit dimension parameters (numpy shapes are extrinsic to the data).  The
array arithmetic of the source is exact in the embedding: machine floats become
elements of an exact commutative ring (`ℚ` for the executable statements, `ℝ`
for the statements about Euclidean norms and the optimization loop).

`scipy.signal.convolve(a, b, mode='valid')`, for `len a = n ≥ m = len b`,
returns the `n - m + 1` full-overlap positions of the full convolution:
`out[j] = ∑ t < m, a (j + m - 1 - t) * b t`, which after reindexing
`s = m - 1 - t` is the sum below.
-/

/-- Valid-mode convolution of `a` (the longer signal) with `b` of length `m`:
`validConv a b m j = (a ⋆ b)[j + m - 1]`. -/
def validConv {R : Type} [CommRing R] (a b : ℕ → R) (m j : ℕ) : R :=
  ∑ s ∈ Finset.range m, a (j + s) * b (m - 1 - s)

/-- Reversal `z[::-1]` of a signal of length `n`. -/
def vrev {R : Type} (z : ℕ → R) (n : ℕ) : ℕ → R :=
  fun t => z (n - 1 - t)

/-- Full convolution of `a` (length `n`) with `b` (length `m`) at position `t`. -/
def fullConv {R : Type} [CommRing R] (a : ℕ → R) (n : ℕ) (b : ℕ → R) (m t : ℕ) : R :=
  ∑ τ ∈ Finset.range n, ∑ s ∈ Finset.range m, if t = τ + s then a τ * b s else 0

/-- Modelled from the spec: `construct_X_multi` lives in `alphacsc.utils`, which is
not part of the sources; the spec describes it as the reconstruction operator
computing the predicted multichannel signal from codes and full atoms, i.e. for
each trial `i` and channel `p` the sum over atoms of the full convolution of the
code row `Z[k, i]` (length `n_times_valid`) with the atom `D[k, p]`
(length `n_times_atom`). -/
def construct_X_multi {R : Type} [CommRing R] (Z D : ℕ → ℕ → ℕ → R)
    (n_atoms n_times_valid n_times_atom : ℕ) : ℕ → ℕ → ℕ → R :=
  fun i p t =>
    ∑ k ∈ Finset.range n_atoms, fullConv (Z k i) n_times_valid (D k p) n_times_atom t

/-- Modelled from the spec: `_get_D` lives in `alphacsc.utils`, which is not part
of the sources; the spec describes it as the deterministic outer-product
expansion of the rank-1 parameters: `D[k, p, t] = uv[k, p] * uv[k, n_chan + t]`. -/
def _get_D {R : Type} [CommRing R] (uv : ℕ → ℕ → R) (n_chan : ℕ) : ℕ → ℕ → ℕ → R :=
  fun k p t => uv k p * uv k (n_chan + t)

/-- `_dense_transpose_convolve(Z, residual)`: for each atom `k` and channel `p`,
the sum over trials of `convolve(residual[i, p], Z[k, i][::-1], mode='valid')`.
The comprehension zips the trial axis of `Z` with the trial axis of `residual`;
`n_trials` is their common length. -/
def _dense_transpose_convolve {R : Type} [CommRing R] (Z residual : ℕ → ℕ → ℕ → R)
    (n_trials n_times_valid : ℕ) : ℕ → ℕ → ℕ → R :=
  fun k p τ =>
    ∑ i ∈ Finset.range n_trials,
      validConv (residual i p) (vrev (Z k i) n_times_valid) n_times_valid τ

/-- The constants record built by `_get_d_update_constants` (a dict in the
source): the two cross-correlation tensors together with the shape data the
consumers read off the arrays. -/
structure UpdateConstants (R : Type) where
  ZtZc : ℕ → ℕ → ℕ → R
  ZtXc : ℕ → ℕ → ℕ → R
  n_atoms : ℕ
  n_chan : ℕ

/-- `constants['ZtX'][k, p] = ∑ i, convolve(Z[k, i][::-1], X[i, p], mode='valid')`.
`scipy.signal.convolve` is commutative; it is written here with the longer
input (`X[i, p]`, length `n_times`) first, as `validConv` expects. -/
def ZtX {R : Type} [CommRing R] (Z X : ℕ → ℕ → ℕ → R)
    (n_trials n_times_valid : ℕ) : ℕ → ℕ → ℕ → R :=
  fun k p τ =>
    ∑ i ∈ Finset.range n_trials,
      validConv (X i p) (vrev (Z k i) n_times_valid) n_times_valid τ

/-- `constants['ZtZ']`, the accumulation loop of `_get_d_update_constants` in
closed form.  The array has extent `2 * n_times_atom - 1` in its lag index; with
`t0 = n_times_atom - 1`, entry `t0 + t` accumulates
`∑ i, (Z[k0, i, :-t] * Z[k, i, t:]).sum()` and entry `t0 - t` accumulates
`∑ i, (Z[k0, i, t:] * Z[k, i, :-t]).sum()` (the slices are empty once
`t ≥ n_times_valid`, matching `Finset.range (n_times_valid - t) = ∅`). -/
def ZtZ {R : Type} [CommRing R] (Z : ℕ → ℕ → ℕ → R)
    (n_trials n_times_valid n_times_atom : ℕ) : ℕ → ℕ → ℕ → R :=
  fun k0 k τi =>
    if τi < 2 * n_times_atom - 1 then
      if n_times_atom - 1 ≤ τi then
        ∑ i ∈ Finset.range n_trials,
          ∑ s ∈ Finset.range (n_times_valid - (τi - (n_times_atom - 1))),
            Z k0 i s * Z k i (s + (τi - (n_times_atom - 1)))
      else
        ∑ i ∈ Finset.range n_trials,
          ∑ s ∈ Finset.range (n_times_valid - ((n_times_atom - 1) - τi)),
            Z k0 i (s + ((n_times_atom - 1) - τi)) * Z k i s
    else 0

/-- `_get_d_update_constants(X, Z)`. -/
def _get_d_update_constants {R : Type} [CommRing R] (X Z : ℕ → ℕ → ℕ → R)
    (n_atoms n_trials n_times_valid n_times_atom n_chan : ℕ) : UpdateConstants R :=
  ⟨ZtZ Z n_trials n_times_valid n_times_atom, ZtX Z X n_trials n_times_valid,
   n_atoms, n_chan⟩

/-- The `constants` branch of `_gradient_d`:
`g[k, p] = ∑ k', convolve(ZtZ[k, k'], D[k', p], mode='valid')`, minus `ZtX`.
The comprehension zips the rows of `ZtZ[k]` (length `c.n_atoms`) with the atoms
of `D` (length `nD`); `zip` truncates to the shorter of the two. -/
def gradient_d_cached {R : Type} [CommRing R] (c : UpdateConstants R)
    (D : ℕ → ℕ → ℕ → R) (nD n_times_atom : ℕ) : ℕ → ℕ → ℕ → R :=
  fun k p τ =>
    (∑ k' ∈ Finset.range (min c.n_atoms nD),
      validConv (c.ZtZc k k') (D k' p) n_times_atom τ) - c.ZtXc k p τ

/-- The direct (`else`) branch of `_gradient_d`:
`residual = construct_X_multi(Z, D) - X`, then `_dense_transpose_convolve`. -/
def gradient_d_direct {R : Type} [CommRing R] (Z X D : ℕ → ℕ → ℕ → R)
    (n_atoms n_trials n_times_valid n_times_atom : ℕ) : ℕ → ℕ → ℕ → R :=
  _dense_transpose_convolve Z
    (fun i p t => construct_X_multi Z D n_atoms n_times_valid n_times_atom i p t - X i p t)
    n_trials n_times_valid

/-- The chain rule of `_gradient_uv`: `grad_u = (grad_d * uv[:, None, n_chan:]).sum(axis=2)`
and `grad_v = (grad_d * uv[:, :n_chan, None]).sum(axis=1)`, packed as
`np.c_[grad_u, grad_v]`. -/
def uv_chain {R : Type} [CommRing R] (uv : ℕ → ℕ → R) (grad_d : ℕ → ℕ → ℕ → R)
    (n_chan n_times_atom : ℕ) : ℕ → ℕ → R :=
  fun k j =>
    if j < n_chan then
      ∑ t ∈ Finset.range n_times_atom, grad_d k j t * uv k (n_chan + t)
    else
      ∑ p ∈ Finset.range n_chan, grad_d k p (j - n_chan) * uv k p

/-- Concrete code tensor used by witnesses: one atom, one trial,
`Z[0, 0] = (1, 2, 3)`. -/
def Zw : ℕ → ℕ → ℕ → ℚ :=
  fun _ _ t => if t = 0 then 1 else if t = 1 then 2 else if t = 2 then 3 else 0

/-- Concrete data tensor used by witnesses: `X[0, 0] = (1, 0, -1, 2)`. -/
def Xw : ℕ → ℕ → ℕ → ℚ :=
  fun _ _ t => if t = 0 then 1 else if t = 2 then -1 else if t = 3 then 2 else 0

/-- Concrete full-atom tensor used by witnesses: `D[0, 0] = (2, -1)`. -/
def Dw : ℕ → ℕ → ℕ → ℚ :=
  fun _ _ t => if t = 0 then 2 else if t = 1 then -1 else 0

/-- `np.linalg.norm(uv, axis=1)[k]`: the Euclidean norm of row `k` of an
array with `L` columns. -/
noncomputable def norm_row (uv : ℕ → ℕ → ℝ) (L k : ℕ) : ℝ :=
  Real.sqrt (∑ j ∈ Finset.range L, uv k j ^ 2)

/-- `prox_uv(uv)`: `norm_uv = np.maximum(1, np.linalg.norm(uv, axis=1)[:, None])`,
then `uv / norm_uv`.  `L` is the row length `n_chan + n_times_atom`. -/
noncomputable def prox_uv (uv : ℕ → ℕ → ℝ) (L : ℕ) : ℕ → ℕ → ℝ :=
  fun k j => uv k j / max 1 (norm_row uv L k)

/-- The inputs and configuration of one `update_uv` call: the shapes
`n_atoms, n_trials, n_times_valid = Z.shape` and `n_chan = X.shape[1]`
(with `n_times_atom = n_times - n_times_valid + 1`), the data, and the
keyword arguments `step_size`, `eps` (`None` resolves to `np.finfo(np.float32).eps`
before the loop, so `eps` here is the resolved value) and `max_iter`. -/
structure UVProblem where
  n_atoms : ℕ
  n_trials : ℕ
  n_times_valid : ℕ
  n_times_atom : ℕ
  n_chan : ℕ
  X : ℕ → ℕ → ℕ → ℝ
  Z : ℕ → ℕ → ℕ → ℝ
  step_size : ℝ
  eps : ℝ
  max_iter : ℕ

/-- `_gradient_uv(uv_hat, constants=constants)` as called inside the loop of
`update_uv`: the cached gradient path through the record built once by
`_get_d_update_constants(X, Z)`, followed by the chain rule to `uv`. -/
noncomputable def uvGrad (P : UVProblem) (uv : ℕ → ℕ → ℝ) : ℕ → ℕ → ℝ :=
  uv_chain uv
    (gradient_d_cached
      (_get_d_update_constants P.X P.Z P.n_atoms P.n_trials P.n_times_valid
        P.n_times_atom P.n_chan)
      (_get_D uv P.n_chan) P.n_atoms P.n_times_atom)
    P.n_chan P.n_times_atom

/-- The convergence signal `f = np.sum(abs(grad))` over the
`(n_atoms, n_chan + n_times_atom)`-shaped gradient array. -/
noncomputable def signalOf (P : UVProblem) (g : ℕ → ℕ → ℝ) : ℝ :=
  ∑ k ∈ Finset.range P.n_atoms,
    ∑ j ∈ Finset.range (P.n_chan + P.n_times_atom), |g k j|

/-- One loop body of `update_uv`:
`uv_hat -= step_size * grad` followed by `uv_hat = prox_uv(uv_hat)`. -/
noncomputable def uvStep (P : UVProblem) (uv : ℕ → ℕ → ℝ) : ℕ → ℕ → ℝ :=
  prox_uv (fun k j => uv k j - P.step_size * uvGrad P uv k j)
    (P.n_chan + P.n_times_atom)

/-- The value of `uv_hat` after `n` executed loop bodies, starting from the
copy of `uv_hat0`. -/
noncomputable def uvSeq (P : UVProblem) : ℕ → (ℕ → ℕ → ℝ) → ℕ → ℕ → ℝ
  | 0, uv0 => uv0
  | n + 1, uv0 => uvStep P (uvSeq P n uv0)

/-- The `for ii in range(max_iter): ... if f <= eps: break / else: print(...)`
loop of `update_uv` with `n` remaining iterations.  Returns the final
`uv_hat`, the number of loop bodies executed, and whether the loop left via
`break` (converged); fuel exhaustion corresponds to the `for`/`else` branch,
which only prints a warning (`'update_uv did not converge'`) and falls
through — modelled by the `false` flag.  The source computes `grad` once per
iteration and reuses it for both the step and `f`; the pure model recomputes
the identical value. -/
noncomputable def update_uv_loop (P : UVProblem) :
    ℕ → (ℕ → ℕ → ℝ) → (ℕ → ℕ → ℝ) × ℕ × Bool
  | 0, uv => (uv, 0, false)
  | n + 1, uv =>
    if signalOf P (uvGrad P uv) ≤ P.eps then (uvStep P uv, 1, true)
    else
      ((update_uv_loop P n (uvStep P uv)).1,
       (update_uv_loop P n (uvStep P uv)).2.1 + 1,
       (update_uv_loop P n (uvStep P uv)).2.2)

/-- `update_uv(X, Z, uv_hat0, ...)`: `uv_hat = uv_hat0.copy()` (value-equal;
the aliasing discipline is modelled separately by `update_uv_mem`), then the
iteration loop. -/
noncomputable def update_uv (P : UVProblem) (uv_hat0 : ℕ → ℕ → ℝ) :
    (ℕ → ℕ → ℝ) × ℕ × Bool :=
  update_uv_loop P P.max_iter uv_hat0

/-- A heap of numpy arrays for the aliasing model: `store` maps addresses to
array values, `next` is the next fresh address, `cur` is the address the
Python variable `uv_hat` currently refers to. -/
structure MemState where
  store : ℕ → ℕ → ℕ → ℝ
  next : ℕ
  cur : ℕ

/-- The array value written by the in-place `uv_hat -= step_size * grad`. -/
noncomputable def subVal (P : UVProblem) (s : MemState) : ℕ → ℕ → ℝ :=
  fun k j => s.store s.cur k j - P.step_size * uvGrad P (s.store s.cur) k j

/-- One loop body of `update_uv` on the heap: `uv_hat -= step_size * grad`
writes in place at the current address; `uv_hat = prox_uv(uv_hat)` reads that
array, allocates the quotient `uv / norm_uv` at a fresh address and rebinds
`uv_hat` to it. -/
noncomputable def update_uv_mem_step (P : UVProblem) (s : MemState) : MemState :=
  ⟨Function.update (Function.update s.store s.cur (subVal P s)) s.next
     (prox_uv (subVal P s) (P.n_chan + P.n_times_atom)),
   s.next + 1, s.next⟩

/-- The `update_uv` iteration loop on the heap (same control flow as
`update_uv_loop`). -/
noncomputable def update_uv_mem_loop (P : UVProblem) : ℕ → MemState → MemState
  | 0, s => s
  | n + 1, s =>
    if signalOf P (uvGrad P (s.store s.cur)) ≤ P.eps then update_uv_mem_step P s
    else update_uv_mem_loop P n (update_uv_mem_step P s)

/-- `update_uv` on the heap: the caller's array `uv_hat0` lives at address
`r0` of `σ0`; `uv_hat = uv_hat0.copy()` allocates a value-equal copy at the
fresh address `next0` and binds `uv_hat` to it; then the loop runs. -/
noncomputable def update_uv_mem (P : UVProblem) (σ0 : ℕ → ℕ → ℕ → ℝ)
    (next0 r0 : ℕ) : MemState :=
  update_uv_mem_loop P P.max_iter
    ⟨Function.update σ0 next0 (σ0 r0), next0 + 1, next0⟩

/-- A shaped 2-d array (`dat` with shape `(d1, d2)`), for the argument
contract of `_gradient_uv`. -/
structure Arr2 where
  dat : ℕ → ℕ → ℚ
  d1 : ℕ
  d2 : ℕ

/-- A shaped 3-d array (`dat` with shape `(d1, d2, d3)`). -/
structure Arr3 where
  dat : ℕ → ℕ → ℕ → ℚ
  d1 : ℕ
  d2 : ℕ
  d3 : ℕ

/-- numpy broadcast read-index on an axis of extent `n`: an axis of extent 1
is repeated. -/
def bidx (n i : ℕ) : ℕ := if n = 1 then 0 else i

/-- numpy broadcast compatibility of two axis extents (for nonzero extents):
the extents agree or either is 1 (that side is repeated). -/
def compat (a b : ℕ) : Prop := a = b ∨ a = 1 ∨ b = 1

instance (a b : ℕ) : Decidable (compat a b) := by
  unfold compat
  infer_instance

/-- A caller-supplied statistics record for `_gradient_uv`: the dict entries
`ZtZ` (shape `(zd1, zd2, zd3)`), `ZtX` (shape `(xd1, xd2, xd3)`) and
`n_chan`.  A record produced by `_get_d_update_constants` has
`zd1 = zd2 = xd1 = n_atoms`, `zd3 = 2 * n_times_atom - 1`, `xd2 = n_chan`,
`xd3 = n_times_atom`, but `_gradient_uv` itself never checks any of this. -/
structure StatsRec where
  ZtZdat : ℕ → ℕ → ℕ → ℚ
  zd1 : ℕ
  zd2 : ℕ
  zd3 : ℕ
  ZtXdat : ℕ → ℕ → ℕ → ℚ
  xd1 : ℕ
  xd2 : ℕ
  xd3 : ℕ
  n_chan : ℕ

/-- The shape conditions under which the direct branch of `_gradient_uv`
(`constants=None`) runs to completion.  With `n_chan = x.d2`, the kernel
length is `tD = uv.d2 - n_chan` and `D = _get_D(uv, n_chan)` has shape
`(uv.d1, min n_chan uv.d2, tD)` (python slicing clamps), so
`X_hat = construct_X_multi(Z, D)` has shape
`(z.d2, min n_chan uv.d2, z.d3 + tD - 1)`.  The conditions are:
every extent involved is nonzero (a zero-sized code row or empty kernel
makes a `convolve` raise, and zero-sized comprehension axes are outside the
modelled domain — see `gradient_uv`); the elementwise `X_hat - X` is
broadcast-compatible on all three axes; and the two chain-rule products
`grad_d * uv[:, None, n_chan:]` and `grad_d * uv[:, :n_chan, None]` are
broadcast-compatible on their non-singleton axes (`grad_d` has shape
`(z.d1, R2, cLen)` with `R2`, `cLen` the broadcast channel/valid-convolution
extents below). -/
def direct_guard (uv : Arr2) (x z : Arr3) : Prop :=
  1 ≤ x.d1 ∧ 1 ≤ x.d2 ∧ 1 ≤ x.d3 ∧ 1 ≤ z.d1 ∧ 1 ≤ z.d2 ∧ 1 ≤ z.d3
    ∧ 1 ≤ uv.d1 ∧ 1 ≤ uv.d2 - x.d2
    ∧ compat z.d2 x.d1
    ∧ compat (min x.d2 uv.d2) x.d2
    ∧ compat (z.d3 + (uv.d2 - x.d2) - 1) x.d3
    ∧ compat z.d1 uv.d1
    ∧ compat (max (z.d3 + (uv.d2 - x.d2) - 1) x.d3 - z.d3 + 1) (uv.d2 - x.d2)
    ∧ compat (max (min x.d2 uv.d2) x.d2) (min x.d2 uv.d2)

instance (uv : Arr2) (x z : Arr3) : Decidable (direct_guard uv x z) := by
  unfold direct_guard
  infer_instance

/-- The value computed by the direct branch of `_gradient_uv` under
`direct_guard`: the residual `construct_X_multi(Z, D) - X` with numpy
broadcast reads on trial/channel/time axes, `_dense_transpose_convolve` with
its `zip` truncating the trial axis to the shorter side, then the chain rule
`grad_u = (grad_d * uv[:, None, n_chan:]).sum(axis=2)`,
`grad_v = (grad_d * uv[:, :n_chan, None]).sum(axis=1)` with broadcast reads,
packed by `np.c_` (columns split at the residual's channel extent `R2`).
Under the guard the residual's time extent is at least `z.d3`, so the
valid-mode convolutions keep the residual as the longer operand. -/
def direct_val (uv : Arr2) (x z : Arr3) : ℕ → ℕ → ℚ :=
  let nc := x.d2
  let tD := uv.d2 - nc
  let cD := min nc uv.d2
  let hatT := z.d3 + tD - 1
  let R1 := max z.d2 x.d1
  let R2 := max cD nc
  let R3 := max hatT x.d3
  let cLen := R3 - z.d3 + 1
  let residual : ℕ → ℕ → ℕ → ℚ := fun i q t =>
    construct_X_multi z.dat (_get_D uv.dat nc) z.d1 z.d3 tD
        (bidx z.d2 i) (bidx cD q) (bidx hatT t)
      - x.dat (bidx x.d1 i) (bidx nc q) (bidx x.d3 t)
  let G := _dense_transpose_convolve z.dat residual (min z.d2 R1) z.d3
  fun k j =>
    if j < R2 then
      ∑ t ∈ Finset.range (max cLen tD),
        G (bidx z.d1 k) j (bidx cLen t) * uv.dat (bidx uv.d1 k) (nc + bidx tD t)
    else
      ∑ q ∈ Finset.range (max R2 cD),
        G (bidx z.d1 k) (bidx R2 q) (j - R2) * uv.dat (bidx uv.d1 k) (bidx cD q)

/-- The shape conditions under which the cached branch of `_gradient_uv`
runs to completion.  With `n_chan = c.n_chan` and `tD = uv.d2 - n_chan`,
`g = ∑ k' convolve(ZtZ[k, k'], D[k', p], 'valid')` has shape
`(c.zd1, min n_chan uv.d2, |c.zd3 - tD| + 1)` (the `zip` truncates the `k'`
axis to `min c.zd2 uv.d1`); the conditions are: nonzero extents for the
convolve operands and the iteration axes (zero-sized ones are outside the
modelled domain — see `gradient_uv`); broadcast compatibility of
`g - constants['ZtX']` on all three axes; and broadcast compatibility of the
two chain-rule products on their non-singleton axes. -/
def cached_guard (uv : Arr2) (c : StatsRec) : Prop :=
  1 ≤ c.zd1 ∧ 1 ≤ c.zd2 ∧ 1 ≤ c.zd3
    ∧ 1 ≤ c.xd1 ∧ 1 ≤ c.xd2 ∧ 1 ≤ c.xd3
    ∧ 1 ≤ uv.d1 ∧ 1 ≤ uv.d2 - c.n_chan ∧ 1 ≤ min c.n_chan uv.d2
    ∧ compat c.zd1 c.xd1
    ∧ compat (min c.n_chan uv.d2) c.xd2
    ∧ compat (c.zd3 - (uv.d2 - c.n_chan) + ((uv.d2 - c.n_chan) - c.zd3) + 1) c.xd3
    ∧ compat (max c.zd1 c.xd1) uv.d1
    ∧ compat
        (max (c.zd3 - (uv.d2 - c.n_chan) + ((uv.d2 - c.n_chan) - c.zd3) + 1) c.xd3)
        (uv.d2 - c.n_chan)
    ∧ compat (max (min c.n_chan uv.d2) c.xd2) (min c.n_chan uv.d2)

instance (uv : Arr2) (c : StatsRec) : Decidable (cached_guard uv c) := by
  unfold cached_guard
  infer_instance

/-- The value computed by the cached branch of `_gradient_uv` under
`cached_guard`: `g[k, p] = ∑ k' convolve(ZtZ[k, k'], D[k', p], 'valid')`
(scipy's 1-d valid mode computes with the longer operand first, hence the
orientation split; `|c.zd3 - tD| + 1` positions), then `g - constants['ZtX']`
with numpy broadcast reads on all three axes, then the chain rule with
broadcast reads, packed by `np.c_` (columns split at the broadcast channel
extent `C2`). -/
def cached_val (uv : Arr2) (c : StatsRec) : ℕ → ℕ → ℚ :=
  let nc := c.n_chan
  let tD := uv.d2 - nc
  let cD := min nc uv.d2
  let D := _get_D uv.dat nc
  let L := c.zd3 - tD + (tD - c.zd3) + 1
  let g : ℕ → ℕ → ℕ → ℚ := fun k q τ =>
    ∑ k' ∈ Finset.range (min c.zd2 uv.d1),
      if tD ≤ c.zd3 then validConv (c.ZtZdat k k') (D k' q) tD τ
      else validConv (D k' q) (c.ZtZdat k k') c.zd3 τ
  let A2 := max c.zd1 c.xd1
  let C2 := max cD c.xd2
  let L2 := max L c.xd3
  let gsub : ℕ → ℕ → ℕ → ℚ := fun k q τ =>
    g (bidx c.zd1 k) (bidx cD q) (bidx L τ)
      - c.ZtXdat (bidx c.xd1 k) (bidx c.xd2 q) (bidx c.xd3 τ)
  fun k j =>
    if j < C2 then
      ∑ t ∈ Finset.range (max L2 tD),
        gsub (bidx A2 k) j (bidx L2 t) * uv.dat (bidx uv.d1 k) (nc + bidx tD t)
    else
      ∑ q ∈ Finset.range (max C2 cD),
        gsub (bidx A2 k) (bidx C2 q) (j - C2) * uv.dat (bidx uv.d1 k) (bidx cD q)

/-- `_gradient_uv(uv, X, Z, constants)` with its argument contract.
`none` models an exception escaping the call; `some` models a returned
gradient.  `if constants:` selects the cached branch; otherwise the two
`assert`s require `X` and `Z` (a `none` input → `AssertionError`) before any
shape is read.  On each compute branch the guard collects exactly the shape
conditions under which every numpy/scipy operation of the branch succeeds
(broadcast compatibility of the `- X` / `- ZtX` subtractions and of the
chain-rule products, nonempty `convolve` operands); a violated condition
raises `ValueError` inside the branch.  Configurations with a zero-sized
iteration axis are mapped to `none` as well and are outside the modelled
domain (the source then aborts in `np.sum(..., axis=1)` or produces
malformed intermediates; no theorem below quantifies over them). -/
def gradient_uv (uv : Arr2) (X Z : Option Arr3)
    (constants : Option StatsRec) : Option (ℕ → ℕ → ℚ) :=
  match constants with
  | some c => if cached_guard uv c then some (cached_val uv c) else none
  | none =>
    match X, Z with
    | some x, some z =>
      if direct_guard uv x z then some (direct_val uv x z) else none
    | _, _ => none

/-- A concrete problem instance for witnesses: every dimension 1,
`X = Z ≡ 1`, `step_size = eps = 1`, `max_iter = 1`. -/
noncomputable def Pw : UVProblem :=
  ⟨1, 1, 1, 1, 1, fun _ _ _ => 1, fun _ _ _ => 1, 1, 1, 1⟩

/-- A concrete problem instance with a negative tolerance, so the signal can
never reach it. -/
noncomputable def Pw7 : UVProblem :=
  ⟨1, 1, 1, 1, 1, fun _ _ _ => 1, fun _ _ _ => 1, 1, -1, 1⟩

/-- A concrete parameter row with entry `1/2` (norm below 1). -/
noncomputable def uvHalfW : ℕ → ℕ → ℝ := fun _ _ => 1 / 2

/-- A concrete parameter row with entry `2` (norm above 1). -/
noncomputable def uvBigW : ℕ → ℕ → ℝ := fun _ _ => 2

/-- The all-zero parameter array. -/
noncomputable def uvZeroW : ℕ → ℕ → ℝ := fun _ _ => 0

/-- A concrete caller-side heap for the aliasing witness. -/
noncomputable def sigma0W : ℕ → ℕ → ℕ → ℝ := fun _ _ _ => 5

/-- Concrete `uv` array for the C8 counterexample: shape `(1, 3)`. -/
def uvW8 : Arr2 := ⟨fun _ _ => 1, 1, 3⟩

/-- Concrete `X` for the C8 counterexample: shape `(1, 1, 2)` — one trial. -/
def XW8 : Arr3 := ⟨fun _ _ _ => 1, 1, 1, 2⟩

/-- Concrete `Z` for the C8 counterexample: shape `(1, 2, 1)` — two trials,
disagreeing with `XW8` on the trial count. -/
def ZW8 : Arr3 := ⟨fun _ _ _ => 1, 1, 2, 1⟩

/-- Concrete statistics record for the cached part of the C8 counterexample:
shaped like a `_get_d_update_constants` record for one atom, one channel and
`n_times_atom = 1` (`ZtZ` of shape `(1, 1, 1)`, `ZtX` of shape `(1, 1, 1)`),
which disagrees with `uvW8`: the record expects parameter rows of length
`n_chan + n_times_atom = 2`, while `uvW8` has rows of length 3. -/
def CW8 : StatsRec := ⟨fun _ _ _ => 1, 1, 1, 1, fun _ _ _ => 1, 1, 1, 1, 1⟩

/-- Correlation of `a` against `b` shifted by `d`, the net content of one
`ZtZ[k0, k, t0 + t] +=` accumulation. -/
theorem sum_ite_shift_left (f g : ℕ → ℚ) (n d : ℕ) :
    (∑ s ∈ Finset.range n, ∑ t ∈ Finset.range n, if t = s + d then f s * g t else 0)
      = ∑ s ∈ Finset.range (n - d), f s * g (s + d) := by
  have h1 : ∀ s ∈ Finset.range n,
      (∑ t ∈ Finset.range n, if t = s + d then f s * g t else 0)
        = if s + d < n then f s * g (s + d) else 0 := by
    intro s _
    rw [Finset.sum_ite_eq' (Finset.range n) (s + d) (fun t => f s * g t)]
    simp only [Finset.mem_range]
  rw [Finset.sum_congr rfl h1]
  rw [← Finset.sum_subset (Finset.range_subset.mpr (Nat.sub_le n d))
    (fun x _ hx => by rw [if_neg (by rw [Finset.mem_range] at hx; omega)])]
  exact Finset.sum_congr rfl fun s hs =>
    if_pos (by rw [Finset.mem_range] at hs; omega)

/-- The mirror-image shift identity, the net content of one
`ZtZ[k0, k, t0 - t] +=` accumulation. -/
theorem sum_ite_shift_right (f g : ℕ → ℚ) (n d : ℕ) :
    (∑ s ∈ Finset.range n, ∑ t ∈ Finset.range n, if s = t + d then f s * g t else 0)
      = ∑ t ∈ Finset.range (n - d), f (t + d) * g t := by
  rw [Finset.sum_comm]
  have h1 : ∀ t ∈ Finset.range n,
      (∑ s ∈ Finset.range n, if s = t + d then f s * g t else 0)
        = if t + d < n then f (t + d) * g t else 0 := by
    intro t _
    rw [Finset.sum_ite_eq' (Finset.range n) (t + d) (fun s => f s * g t)]
    simp only [Finset.mem_range]
  rw [Finset.sum_congr rfl h1]
  rw [← Finset.sum_subset (Finset.range_subset.mpr (Nat.sub_le n d))
    (fun x _ hx => by rw [if_neg (by rw [Finset.mem_range] at hx; omega)])]
  exact Finset.sum_congr rfl fun t ht =>
    if_pos (by rw [Finset.mem_range] at ht; omega)

/-- `validConv` against a reversed kernel is a plain cross-correlation. -/
theorem validConv_vrev (a z : ℕ → ℚ) (n j : ℕ) :
    validConv a (vrev z n) n j = ∑ s ∈ Finset.range n, a (j + s) * z s := by
  unfold validConv vrev
  refine Finset.sum_congr rfl fun s hs => ?_
  rw [Finset.mem_range] at hs
  rw [show n - 1 - (n - 1 - s) = s by omega]

/-- Every in-range entry of `ZtZ` is the corresponding double cross-correlation
of code rows: reading `ZtZ` at lag index `τ + (t0 - w)` recovers
`∑ i s t, [τ + s = t + w] * Z k0 i s * Z k i t`. -/
theorem ZtZ_as_corr (Z : ℕ → ℕ → ℕ → ℚ) (ntr ntv nta k0 k τ w : ℕ)
    (hw : w < nta) (hτ : τ < nta) :
    ZtZ Z ntr ntv nta k0 k (τ + (nta - 1 - w))
      = ∑ i ∈ Finset.range ntr, ∑ s ∈ Finset.range ntv, ∑ t ∈ Finset.range ntv,
          if τ + s = t + w then Z k0 i s * Z k i t else 0 := by
  unfold ZtZ
  rw [if_pos (by omega : τ + (nta - 1 - w) < 2 * nta - 1)]
  by_cases hcase : w ≤ τ
  · rw [if_pos (by omega : nta - 1 ≤ τ + (nta - 1 - w))]
    rw [show τ + (nta - 1 - w) - (nta - 1) = τ - w by omega]
    refine Finset.sum_congr rfl fun i _ => ?_
    have hc : ∀ s t : ℕ, (τ + s = t + w) = (t = s + (τ - w)) := fun s t => propext (by omega)
    simp only [hc]
    exact (sum_ite_shift_left (Z k0 i) (Z k i) ntv (τ - w)).symm
  · rw [if_neg (by omega : ¬ (nta - 1 ≤ τ + (nta - 1 - w)))]
    rw [show (nta - 1) - (τ + (nta - 1 - w)) = w - τ by omega]
    refine Finset.sum_congr rfl fun i _ => ?_
    have hc : ∀ s t : ℕ, (τ + s = t + w) = (s = t + (w - τ)) := fun s t => propext (by omega)
    simp only [hc]
    exact (sum_ite_shift_right (Z k0 i) (Z k i) ntv (w - τ)).symm

/-- Claim C5: the `ZtZ` autocorrelation tensor satisfies
`ZtZ[k0, k, t0 + t] = ZtZ[k, k0, t0 - t]` for every lag `t < n_times_atom`,
where `t0 = n_times_atom - 1`. -/
theorem ZtZ_lag_symmetry (Z : ℕ → ℕ → ℕ → ℚ)
    (n_trials n_times_valid n_times_atom : ℕ) (k0 k t : ℕ)
    (ht : t < n_times_atom) :
    ZtZ Z n_trials n_times_valid n_times_atom k0 k ((n_times_atom - 1) + t)
      = ZtZ Z n_trials n_times_valid n_times_atom k k0 ((n_times_atom - 1) - t) := by
  unfold ZtZ
  have g1 : (n_times_atom - 1) + t < 2 * n_times_atom - 1 := by omega
  have g2 : (n_times_atom - 1) - t < 2 * n_times_atom - 1 := by omega
  have g3 : n_times_atom - 1 ≤ (n_times_atom - 1) + t := by omega
  rw [if_pos g1, if_pos g3, if_pos g2]
  rcases Nat.eq_zero_or_pos t with h0 | hpos
  · subst h0
    rw [if_pos (by omega)]
    simp only [Nat.add_zero, Nat.sub_zero, Nat.sub_self]
    refine Finset.sum_congr rfl fun i _ => Finset.sum_congr rfl fun s _ => ?_
    exact mul_comm _ _
  · rw [if_neg (by omega)]
    have h1 : ((n_times_atom - 1) + t) - (n_times_atom - 1) = t := by omega
    have h2 : (n_times_atom - 1) - ((n_times_atom - 1) - t) = t := by omega
    rw [h1, h2]
    refine Finset.sum_congr rfl fun i _ => Finset.sum_congr rfl fun s _ => ?_
    rw [mul_comm]

/-- Reading `ZtZ` at lag index `τ + s'` recovers the double cross-correlation at
relative shift `n_times_atom - 1 - s'`, the form needed under the reflected
kernel sum. -/
theorem ZtZ_at_shift (Z : ℕ → ℕ → ℕ → ℚ) (ntr ntv nta k0 k τ s' : ℕ)
    (hs' : s' < nta) (hτ : τ < nta) :
    ZtZ Z ntr ntv nta k0 k (τ + s')
      = ∑ i ∈ Finset.range ntr, ∑ s ∈ Finset.range ntv, ∑ t ∈ Finset.range ntv,
          if τ + s = t + (nta - 1 - s') then Z k0 i s * Z k i t else 0 := by
  have h := ZtZ_as_corr Z ntr ntv nta k0 k τ (nta - 1 - s') (by omega) hτ
  rwa [show nta - 1 - (nta - 1 - s') = s' by omega] at h

/-- Reordering of a five-fold nested sum over ranges. -/
theorem sum5_reorder (F : ℕ → ℕ → ℕ → ℕ → ℕ → ℚ) (a b c d e : ℕ) :
    (∑ x ∈ Finset.range a, ∑ y ∈ Finset.range b, ∑ z ∈ Finset.range c,
      ∑ u ∈ Finset.range d, ∑ v ∈ Finset.range e, F x y z u v)
      = ∑ z ∈ Finset.range c, ∑ u ∈ Finset.range d, ∑ x ∈ Finset.range a,
          ∑ v ∈ Finset.range e, ∑ y ∈ Finset.range b, F x y z u v := by
  refine (Finset.sum_congr rfl fun x _ => Finset.sum_comm).trans ?_
  refine (Finset.sum_congr rfl fun x _ => Finset.sum_congr rfl fun z _ =>
    Finset.sum_comm).trans ?_
  refine (Finset.sum_congr rfl fun x _ => Finset.sum_congr rfl fun z _ =>
    Finset.sum_congr rfl fun u _ => Finset.sum_comm).trans ?_
  refine Finset.sum_comm.trans ?_
  exact Finset.sum_congr rfl fun z _ => Finset.sum_comm

/-- Claim C1: for consistent shapes, the cached-path gradient with respect to
`D` computed by `_gradient_d` from the record built by
`_get_d_update_constants(X, Z)` is identical, in exact arithmetic, to the
direct-path gradient computed from the residual
`construct_X_multi(Z, D) - X` via `_dense_transpose_convolve`. -/
theorem gradient_d_cached_eq_direct
    (n_atoms n_trials n_times_valid n_times_atom n_chan : ℕ)
    (Z X D : ℕ → ℕ → ℕ → ℚ) (k p τ : ℕ) (hτ : τ < n_times_atom) :
    gradient_d_cached
        (_get_d_update_constants X Z n_atoms n_trials n_times_valid n_times_atom n_chan)
        D n_atoms n_times_atom k p τ
      = gradient_d_direct Z X D n_atoms n_trials n_times_valid n_times_atom k p τ := by
  simp only [gradient_d_cached, gradient_d_direct, _get_d_update_constants,
    _dense_transpose_convolve, ZtX, Nat.min_self]
  simp only [validConv_vrev]
  simp only [sub_mul, Finset.sum_sub_distrib]
  congr 1
  have hL : ∀ k' ∈ Finset.range n_atoms,
      validConv (ZtZ Z n_trials n_times_valid n_times_atom k k') (D k' p) n_times_atom τ
        = ∑ w ∈ Finset.range n_times_atom,
            (∑ i ∈ Finset.range n_trials, ∑ s ∈ Finset.range n_times_valid,
              ∑ t ∈ Finset.range n_times_valid,
                if τ + s = t + w then Z k i s * Z k' i t else 0) * D k' p w := by
    intro k' _
    unfold validConv
    rw [← Finset.sum_range_reflect (fun w =>
      (∑ i ∈ Finset.range n_trials, ∑ s ∈ Finset.range n_times_valid,
        ∑ t ∈ Finset.range n_times_valid,
          if τ + s = t + w then Z k i s * Z k' i t else 0) * D k' p w) n_times_atom]
    refine Finset.sum_congr rfl fun s' hs' => ?_
    rw [Finset.mem_range] at hs'
    rw [ZtZ_at_shift Z n_trials n_times_valid n_times_atom k k' τ s' hs' hτ]
  rw [Finset.sum_congr rfl hL]
  simp only [construct_X_multi, fullConv]
  simp only [Finset.sum_mul, ite_mul, zero_mul]
  rw [sum5_reorder]
  refine Finset.sum_congr rfl fun i _ => Finset.sum_congr rfl fun s _ =>
    Finset.sum_congr rfl fun k' _ => Finset.sum_congr rfl fun t _ =>
    Finset.sum_congr rfl fun w _ => if_congr Iff.rfl (by ring) rfl

/-- Witness for C1 at one atom, one trial, one channel,
`n_times_valid = 3`, `n_times_atom = 2`, gradient position `τ = 1`. -/
theorem gradient_d_cached_eq_direct_witness :
    1 < 2 ∧ gradient_d_cached (_get_d_update_constants Xw Zw 1 1 3 2 1) Dw 1 2 0 0 1
        = gradient_d_direct Zw Xw Dw 1 1 3 2 0 0 1 :=
  ⟨by decide, gradient_d_cached_eq_direct 1 1 3 2 1 Zw Xw Dw 0 0 1 (by decide)⟩

/-- The row norm of a projected row: dividing each entry of row `k` by
`m = max 1 ‖row‖` divides the row norm by `m`. -/
theorem norm_row_prox (uv : ℕ → ℕ → ℝ) (L k : ℕ) :
    norm_row (prox_uv uv L) L k = norm_row uv L k / max 1 (norm_row uv L k) := by
  have hm0 : (0:ℝ) < max 1 (norm_row uv L k) :=
    lt_of_lt_of_le zero_lt_one (le_max_left _ _)
  have hsum : ∀ m : ℝ, ∑ j ∈ Finset.range L, (uv k j / m) ^ 2
      = (∑ j ∈ Finset.range L, uv k j ^ 2) / m ^ 2 := by
    intro m
    rw [Finset.sum_div]
    exact Finset.sum_congr rfl fun j _ => div_pow _ _ _
  show Real.sqrt (∑ j ∈ Finset.range L, (uv k j / max 1 (norm_row uv L k)) ^ 2) = _
  rw [hsum, Real.sqrt_div (Finset.sum_nonneg fun j _ => sq_nonneg _),
    Real.sqrt_sq hm0.le]
  rfl

/-- After projection every row norm is at most 1. -/
theorem prox_norm_le_one (uv : ℕ → ℕ → ℝ) (L k : ℕ) :
    norm_row (prox_uv uv L) L k ≤ 1 := by
  rw [norm_row_prox]
  have hm0 : (0:ℝ) < max 1 (norm_row uv L k) :=
    lt_of_lt_of_le zero_lt_one (le_max_left _ _)
  exact (div_le_one hm0).mpr (le_max_right _ _)

/-- A row whose norm exceeded 1 has norm exactly 1 after projection. -/
theorem prox_norm_eq_one (uv : ℕ → ℕ → ℝ) (L k : ℕ)
    (h : 1 < norm_row uv L k) :
    norm_row (prox_uv uv L) L k = 1 := by
  rw [norm_row_prox, max_eq_right h.le,
    div_self (ne_of_gt (lt_trans zero_lt_one h))]

/-- Claim C3: `prox_uv` is idempotent — applying it twice gives exactly the
same array as applying it once. -/
theorem prox_uv_idempotent (uv : ℕ → ℕ → ℝ) (L : ℕ) :
    prox_uv (prox_uv uv L) L = prox_uv uv L := by
  funext k j
  show prox_uv uv L k j / max 1 (norm_row (prox_uv uv L) L k) = prox_uv uv L k j
  rw [max_eq_left (prox_norm_le_one uv L k), div_one]

/-- Claim C4: a row already inside the unit ball is returned unchanged by
`prox_uv`; the scaling divisor is exactly 1. -/
theorem prox_uv_noop_small_rows (uv : ℕ → ℕ → ℝ) (L k : ℕ)
    (h : norm_row uv L k ≤ 1) :
    max 1 (norm_row uv L k) = 1 ∧ ∀ j, prox_uv uv L k j = uv k j := by
  have h1 : max 1 (norm_row uv L k) = 1 := max_eq_left h
  refine ⟨h1, fun j => ?_⟩
  show uv k j / max 1 (norm_row uv L k) = uv k j
  rw [h1, div_one]

/-- Witness for C4: the constant row `1/2` (norm `1/2 ≤ 1`) is unchanged. -/
theorem prox_uv_noop_small_rows_witness :
    norm_row uvHalfW 1 0 ≤ 1
      ∧ (max 1 (norm_row uvHalfW 1 0) = 1 ∧ ∀ j, prox_uv uvHalfW 1 0 j = uvHalfW 0 j) := by
  have h : norm_row uvHalfW 1 0 ≤ 1 := by
    unfold norm_row uvHalfW
    rw [Finset.sum_range_one]
    have := Real.sqrt_le_sqrt (by norm_num : ((1:ℝ)/2) ^ 2 ≤ 1)
    rwa [Real.sqrt_one] at this
  exact ⟨h, prox_uv_noop_small_rows uvHalfW 1 0 h⟩

/-- Claim C9: `prox_uv` is total — the divisor `max(1, ‖row‖)` is at least 1
(in particular nonzero), and an all-zero row is returned unchanged as zeros. -/
theorem prox_uv_total_no_div_zero (uv : ℕ → ℕ → ℝ) (L k : ℕ) :
    1 ≤ max 1 (norm_row uv L k) ∧ max 1 (norm_row uv L k) ≠ 0
      ∧ ((∀ j, uv k j = 0) → ∀ j, prox_uv uv L k j = 0) := by
  refine ⟨le_max_left _ _,
    ne_of_gt (lt_of_lt_of_le zero_lt_one (le_max_left _ _)), fun hz j => ?_⟩
  show uv k j / max 1 (norm_row uv L k) = 0
  rw [hz j, zero_div]

/-- Witness for C9 at the all-zero row. -/
theorem prox_uv_total_no_div_zero_witness :
    (∀ j, uvZeroW 0 j = 0)
      ∧ (1 ≤ max 1 (norm_row uvZeroW 2 0) ∧ max 1 (norm_row uvZeroW 2 0) ≠ 0
          ∧ ∀ j, prox_uv uvZeroW 2 0 j = 0) := by
  have hz : ∀ j, uvZeroW 0 j = 0 := fun _ => rfl
  have h := prox_uv_total_no_div_zero uvZeroW 2 0
  exact ⟨hz, h.1, h.2.1, h.2.2 hz⟩

/-- Starting the iteration one step later shifts the iterate index by one. -/
theorem uvSeq_shift (P : UVProblem) (n : ℕ) (uv0 : ℕ → ℕ → ℝ) :
    uvSeq P n (uvStep P uv0) = uvSeq P (n + 1) uv0 := by
  induction n with
  | zero => rfl
  | succ m ih =>
    show uvStep P (uvSeq P m (uvStep P uv0)) = uvStep P (uvSeq P (m + 1) uv0)
    rw [ih]

/-- If the convergence signal stays above the tolerance for the whole budget,
the loop runs all its iterations, never breaks, and ends in the `for`/`else`
(non-converged) branch with the last computed iterate. -/
theorem update_uv_loop_exhaust (P : UVProblem) :
    ∀ n (uv : ℕ → ℕ → ℝ),
      (∀ j, j < n → P.eps < signalOf P (uvGrad P (uvSeq P j uv))) →
      update_uv_loop P n uv = (uvSeq P n uv, n, false) := by
  intro n
  induction n with
  | zero => intro uv _; rfl
  | succ m ih =>
    intro uv h
    have h0 : P.eps < signalOf P (uvGrad P uv) := h 0 (Nat.succ_pos m)
    have ihs := ih (uvStep P uv) fun j hj => by
      have hx := h (j + 1) (Nat.succ_lt_succ hj)
      rwa [← uvSeq_shift P j uv] at hx
    show update_uv_loop P (m + 1) uv = _
    simp only [update_uv_loop]
    rw [if_neg (not_le.mpr h0), ihs, uvSeq_shift P m uv]

/-- Claim C7: if the convergence signal never falls to the tolerance within
the budget, `update_uv` performs exactly `max_iter` iterations, reports
non-convergence through the `for`/`else` warning branch (not an exception:
the flag is `false` and a value is still produced), and returns the last
computed parameters. -/
theorem update_uv_budget_exhaustion (P : UVProblem) (uv_hat0 : ℕ → ℕ → ℝ)
    (h : ∀ j, j < P.max_iter → P.eps < signalOf P (uvGrad P (uvSeq P j uv_hat0))) :
    update_uv P uv_hat0 = (uvSeq P P.max_iter uv_hat0, P.max_iter, false) :=
  update_uv_loop_exhaust P P.max_iter uv_hat0 h

/-- Witness for C7: with tolerance `-1` the nonnegative signal can never
reach it, and the budget of one iteration is exhausted. -/
theorem update_uv_budget_exhaustion_witness :
    (∀ j, j < Pw7.max_iter → Pw7.eps < signalOf Pw7 (uvGrad Pw7 (uvSeq Pw7 j uvZeroW)))
      ∧ update_uv Pw7 uvZeroW = (uvSeq Pw7 Pw7.max_iter uvZeroW, Pw7.max_iter, false) := by
  have h : ∀ j, j < Pw7.max_iter →
      Pw7.eps < signalOf Pw7 (uvGrad Pw7 (uvSeq Pw7 j uvZeroW)) := by
    intro j _
    have hnn : (0:ℝ) ≤ signalOf Pw7 (uvGrad Pw7 (uvSeq Pw7 j uvZeroW)) :=
      Finset.sum_nonneg fun k _ => Finset.sum_nonneg fun l _ => abs_nonneg _
    have : Pw7.eps = (-1 : ℝ) := rfl
    rw [this]
    linarith
  exact ⟨h, update_uv_budget_exhaustion Pw7 uvZeroW h⟩

/-- Claim C10: the convergence test runs only after the gradient step and the
projection of the iteration have been applied — if the signal at the loop's
current parameters is within tolerance and at least one iteration remains,
the returned value is the post-step post-projection iterate, not the
parameters at which the small gradient was evaluated. -/
theorem update_uv_returns_post_step (P : UVProblem) (uv_hat0 : ℕ → ℕ → ℝ)
    (h1 : signalOf P (uvGrad P uv_hat0) ≤ P.eps) (h2 : 1 ≤ P.max_iter) :
    update_uv P uv_hat0 = (uvStep P uv_hat0, 1, true) := by
  unfold update_uv
  obtain ⟨m, hm⟩ := Nat.exists_eq_add_of_le h2
  rw [hm, Nat.add_comm 1 m]
  simp only [update_uv_loop]
  rw [if_pos h1]

/-- Witness for C10: at the zero parameter array the chain-rule gradient is
identically zero, so the signal `0` is within the tolerance `1`, and the call
returns the post-step array. -/
theorem update_uv_returns_post_step_witness :
    (signalOf Pw (uvGrad Pw uvZeroW) ≤ Pw.eps ∧ 1 ≤ Pw.max_iter)
      ∧ update_uv Pw uvZeroW = (uvStep Pw uvZeroW, 1, true) := by
  have h1 : signalOf Pw (uvGrad Pw uvZeroW) ≤ Pw.eps := by
    have hg : ∀ k j, uvGrad Pw uvZeroW k j = 0 := by
      intro k j
      show uv_chain uvZeroW _ Pw.n_chan Pw.n_times_atom k j = 0
      unfold uv_chain
      split_ifs
      · exact Finset.sum_eq_zero fun t _ => mul_eq_zero_of_right _ rfl
      · exact Finset.sum_eq_zero fun q _ => mul_eq_zero_of_right _ rfl
    show (∑ k ∈ Finset.range Pw.n_atoms,
      ∑ j ∈ Finset.range (Pw.n_chan + Pw.n_times_atom), |uvGrad Pw uvZeroW k j|) ≤ Pw.eps
    have : ∀ k ∈ Finset.range Pw.n_atoms,
        (∑ j ∈ Finset.range (Pw.n_chan + Pw.n_times_atom), |uvGrad Pw uvZeroW k j|) = 0 :=
      fun k _ => Finset.sum_eq_zero fun j _ => by rw [hg k j, abs_zero]
    rw [Finset.sum_eq_zero this]
    exact zero_le_one
  exact ⟨⟨h1, le_refl 1⟩, update_uv_returns_post_step Pw uvZeroW h1 (le_refl 1)⟩

/-- Claim C2: every row of a `prox_uv` output has norm at most 1, with norm
exactly 1 for rows that were large before projection, and after every
iteration of the `update_uv` loop every row of the iterate has norm at
most 1. -/
theorem update_uv_norm_invariant (uv : ℕ → ℕ → ℝ) (L k : ℕ)
    (P : UVProblem) (uv0 : ℕ → ℕ → ℝ) (n k2 : ℕ) :
    norm_row (prox_uv uv L) L k ≤ 1
      ∧ (1 < norm_row uv L k → norm_row (prox_uv uv L) L k = 1)
      ∧ (1 ≤ n → norm_row (uvSeq P n uv0) (P.n_chan + P.n_times_atom) k2 ≤ 1) := by
  refine ⟨prox_norm_le_one uv L k, prox_norm_eq_one uv L k, fun hn => ?_⟩
  obtain ⟨m, hm⟩ := Nat.exists_eq_add_of_le hn
  rw [hm, Nat.add_comm 1 m]
  show norm_row (uvStep P (uvSeq P m uv0)) (P.n_chan + P.n_times_atom) k2 ≤ 1
  exact prox_norm_le_one _ _ _

/-- Witness for C2: the constant row `2` has norm `2 > 1` and is projected to
norm exactly 1; the first loop iterate on the concrete problem satisfies the
bound. -/
theorem update_uv_norm_invariant_witness :
    (1 < norm_row uvBigW 1 0 ∧ 1 ≤ 1)
      ∧ (norm_row (prox_uv uvBigW 1) 1 0 ≤ 1
          ∧ norm_row (prox_uv uvBigW 1) 1 0 = 1
          ∧ norm_row (uvSeq Pw 1 uvZeroW) (Pw.n_chan + Pw.n_times_atom) 0 ≤ 1) := by
  have hbig : 1 < norm_row uvBigW 1 0 := by
    unfold norm_row uvBigW
    rw [Finset.sum_range_one, Real.sqrt_sq (by norm_num : (0:ℝ) ≤ 2)]
    norm_num
  have h := update_uv_norm_invariant uvBigW 1 0 Pw uvZeroW 1 0
  exact ⟨⟨hbig, le_refl 1⟩, h.1, h.2.1 hbig, h.2.2 (le_refl 1)⟩

/-- One heap step leaves every address below the current one untouched. -/
theorem mem_step_frame (P : UVProblem) (s : MemState) (r0 : ℕ)
    (h1 : r0 < s.cur) (h2 : s.cur < s.next) :
    (update_uv_mem_step P s).store r0 = s.store r0 := by
  show Function.update (Function.update s.store s.cur (subVal P s)) s.next
      (prox_uv (subVal P s) (P.n_chan + P.n_times_atom)) r0 = s.store r0
  rw [Function.update_noteq (by omega : r0 ≠ s.next),
    Function.update_noteq (by omega : r0 ≠ s.cur)]

/-- The loop writes only at the working address and at fresh addresses, all
strictly above `r0`. -/
theorem update_uv_mem_loop_frame (P : UVProblem) :
    ∀ n (s : MemState) (r0 : ℕ), r0 < s.cur → s.cur < s.next →
      (update_uv_mem_loop P n s).store r0 = s.store r0
        ∧ r0 < (update_uv_mem_loop P n s).cur := by
  intro n
  induction n with
  | zero => intro s r0 h1 _; exact ⟨rfl, h1⟩
  | succ m ih =>
    intro s r0 h1 h2
    simp only [update_uv_mem_loop]
    split_ifs
    · exact ⟨mem_step_frame P s r0 h1 h2, by show r0 < s.next; omega⟩
    · have hstep := ih (update_uv_mem_step P s) r0
        (by show r0 < s.next; omega) (by show s.next < s.next + 1; omega)
      refine ⟨hstep.1.trans (mem_step_frame P s r0 h1 h2), hstep.2⟩

/-- Claim C6: `update_uv` never mutates the caller-supplied initial array
`uv_hat0` (held at address `r0` of the caller's heap): it works on a fresh
copy, and the address `uv_hat` finally refers to is likewise a fresh one. -/
theorem update_uv_preserves_input (P : UVProblem) (σ0 : ℕ → ℕ → ℕ → ℝ)
    (next0 r0 : ℕ) (h : r0 < next0) :
    (update_uv_mem P σ0 next0 r0).store r0 = σ0 r0
      ∧ r0 < (update_uv_mem P σ0 next0 r0).cur := by
  have hf := update_uv_mem_loop_frame P P.max_iter
    ⟨Function.update σ0 next0 (σ0 r0), next0 + 1, next0⟩ r0 h (Nat.lt_succ_self next0)
  refine ⟨hf.1.trans ?_, hf.2⟩
  exact Function.update_noteq (by omega) _ _

/-- Witness for C6 on a concrete heap with the caller's array at address 0
and the allocator at address 1. -/
theorem update_uv_preserves_input_witness :
    0 < 1 ∧ ((update_uv_mem Pw sigma0W 1 0).store 0 = sigma0W 0
      ∧ 0 < (update_uv_mem Pw sigma0W 1 0).cur) :=
  ⟨Nat.one_pos, update_uv_preserves_input Pw sigma0W 1 0 Nat.one_pos⟩

/-- Witness for C5 at `n_times_valid = 3`, `n_times_atom = 2`, lag `t = 1`. -/
theorem ZtZ_lag_symmetry_witness :
    1 < 2 ∧ ZtZ Zw 1 3 2 0 0 ((2 - 1) + 1) = ZtZ Zw 1 3 2 0 0 ((2 - 1) - 1) :=
  ⟨by decide, ZtZ_lag_symmetry Zw 1 3 2 0 0 1 (by decide)⟩

/-- Claim C8, counterexample: neither named shape mismatch makes
`_gradient_uv` fail fast.  `X` and `Z` disagree on the trial count (1 vs 2),
yet the direct path returns a gradient — numpy broadcasts the single-trial
`X` across the residual and `zip` aligns the rest; and a statistics record
whose channel count and atom length disagree with `uv` (the record expects
rows of length 2, `uv` has rows of length 3) also yields a gradient — the
lag axis of `g - constants['ZtX']` is silently broadcast. -/
theorem gradient_uv_mismatch_counterexample :
    (XW8.d1 ≠ ZW8.d2 ∧ (gradient_uv uvW8 (some XW8) (some ZW8) none).isSome = true)
      ∧ (uvW8.d2 ≠ CW8.n_chan + CW8.xd3
          ∧ (gradient_uv uvW8 none none (some CW8)).isSome = true) := by
  exact ⟨⟨by decide, by decide⟩, ⟨by decide, by decide⟩⟩

/-- Claim C8, amended: `_gradient_uv` fails fast (the two `assert`s) when the
caller supplies neither a statistics record nor both of `X` and `Z`, but it
does not validate shapes: a disagreement between the trial counts of `X` and
`Z` in which `X` holds a single trial is not rejected — the residual
subtraction silently broadcasts `X` and a gradient is returned — and a
statistics record whose channel count and atom length disagree with `uv` is
not rejected either when the record's atom length is 1 — `g - ZtX` silently
broadcasts the record's lag axis and a gradient is returned. -/
theorem gradient_uv_fail_fast_amended
    (uv : Arr2) (x z : Arr3)
    (A T nc ntv nta : ℕ) (ud : ℕ → ℕ → ℚ) (xd zd : ℕ → ℕ → ℕ → ℚ)
    (B mc tD : ℕ) (vd : ℕ → ℕ → ℚ) (zzd zxd : ℕ → ℕ → ℕ → ℚ)
    (hA : 1 ≤ A) (hT : 2 ≤ T) (hnc : 1 ≤ nc) (hntv : 1 ≤ ntv) (hnta : 1 ≤ nta)
    (hB : 1 ≤ B) (hmc : 1 ≤ mc) (htD : 2 ≤ tD) :
    gradient_uv uv none none none = none
      ∧ gradient_uv uv (some x) none none = none
      ∧ gradient_uv uv none (some z) none = none
      ∧ (gradient_uv ⟨ud, A, nc + nta⟩
          (some ⟨xd, 1, nc, ntv + nta - 1⟩) (some ⟨zd, A, T, ntv⟩) none).isSome = true
      ∧ (gradient_uv ⟨vd, B, mc + tD⟩ none none
          (some ⟨zzd, B, B, 1, zxd, B, mc, 1, mc⟩)).isSome = true := by
  refine ⟨rfl, rfl, rfl, ?_, ?_⟩
  · have hg : direct_guard ⟨ud, A, nc + nta⟩ ⟨xd, 1, nc, ntv + nta - 1⟩ ⟨zd, A, T, ntv⟩ := by
      dsimp only [direct_guard, compat]
      omega
    simp only [gradient_uv]
    rw [if_pos hg]
    rfl
  · have hg : cached_guard ⟨vd, B, mc + tD⟩ ⟨zzd, B, B, 1, zxd, B, mc, 1, mc⟩ := by
      dsimp only [cached_guard, compat]
      omega
    simp only [gradient_uv]
    rw [if_pos hg]
    rfl

/-- Witness for the amended C8 theorem: one atom, one channel, two trials in
`Z` against one in `X`, and a unit-atom-length record against a `uv` with
temporal length 2. -/
theorem gradient_uv_fail_fast_amended_witness :
    (1 ≤ 1 ∧ 2 ≤ 2)
      ∧ (gradient_uv uvW8 none none none = none
          ∧ gradient_uv uvW8 (some XW8) none none = none
          ∧ gradient_uv uvW8 none (some ZW8) none = none
          ∧ (gradient_uv ⟨fun _ _ => 0, 1, 1 + 1⟩
              (some ⟨fun _ _ _ => 0, 1, 1, 1 + 1 - 1⟩)
              (some ⟨fun _ _ _ => 0, 1, 2, 1⟩) none).isSome = true
          ∧ (gradient_uv ⟨fun _ _ => 0, 1, 1 + 2⟩ none none
              (some ⟨fun _ _ _ => 0, 1, 1, 1, fun _ _ _ => 0, 1, 1, 1, 1⟩)).isSome = true) :=
  ⟨⟨le_refl 1, le_refl 2⟩,
   gradient_uv_fail_fast_amended uvW8 XW8 ZW8 1 2 1 1 1 (fun _ _ => 0) (fun _ _ _ => 0)
     (fun _ _ _ => 0) 1 1 2 (fun _ _ => 0) (fun _ _ _ => 0) (fun _ _ _ => 0)
     (le_refl 1) (le_refl 2) (le_refl 1) (le_refl 1) (le_refl 1) (le_refl 1)
     (le_refl 1) (le_refl 2)⟩
